import Mathlib

/-!
Verification of the RBSP (Raw Byte Sequence Payload) decoding core of the
`h264-reader` crate, file `src/rbsp.rs`.

Bytes are modelled as `Nat` (the code only compares them against `0x00` and
`0x03`); bit streams as `List Bool` (MSB first, exactly the order of
`bitstream_io`'s big-endian reader over a byte source).  Fallible reads
return `Except`.  All definitions are executable.
-/

set_option maxHeartbeats 1000000

namespace Rbsp

/-- `ParseState` from `rbsp.rs` lines 31-37: progress towards matching the
`00 00 03` emulation-prevention pattern.  `Skip` means "unconditionally
discard the next byte". -/
inductive ParseState where
  | Start
  | OneZero
  | TwoZero
  | Skip
deriving DecidableEq, Repr

/-- Helper: account for the `*i += 1` at the bottom of `find_three`'s loop. -/
def step1 (r : ParseState × Nat × Bool) : ParseState × Nat × Bool :=
  (r.1, r.2.1 + 1, r.2.2)

/-- `find_three` (`rbsp.rs` lines 108-138), expressed on the not-yet-examined
suffix of the chunk: returns the final state, the number of bytes scanned, and
whether an `emulation_prevention_three_byte` was found.  When found, the count
indexes the `0x03` byte itself and the state is left unchanged (`TwoZero`),
exactly as in the source.  The `memchr` bulk skip in the `Start` arm is a
per-byte-equivalent fast path (it only jumps over non-zero bytes, each of
which leaves the state at `Start`), so it is modelled byte by byte.  In the
`TwoZero` arm both a `0x00` byte (which additionally prints the "invalid
byte" diagnostic) and any other non-`0x03` byte set the state to `Start`.
The `Skip` arm is `unreachable!()` in the source (no caller invokes
`find_three` in that state); the model returns without scanning. -/
def find_three : ParseState → List Nat → ParseState × Nat × Bool
  | s, [] => (s, 0, false)
  | .Start, b :: rest =>
      if b = 0 then step1 (find_three .OneZero rest) else step1 (find_three .Start rest)
  | .OneZero, b :: rest =>
      if b = 0 then step1 (find_three .TwoZero rest) else step1 (find_three .Start rest)
  | .TwoZero, b :: rest =>
      if b = 3 then (.TwoZero, 0, true) else step1 (find_three .Start rest)
  | .Skip, _ :: _ => (.Skip, 0, false)

/-- Cons a byte onto the output of a run of the automaton. -/
def keep (b : Nat) (r : ParseState × List Nat) : ParseState × List Nat :=
  (r.1, b :: r.2)

/-- Single-pass semantics of emulation-prevention removal: run the automaton
over a byte list from a given state, dropping exactly the `0x03` bytes at
which `find_three` fires and resuming at `Start` after each.  This is the
semantic summary against which the chunked decoders are proved. -/
def rbspRun : ParseState → List Nat → ParseState × List Nat
  | s, [] => (s, [])
  | .Start, b :: rest => keep b (rbspRun (if b = 0 then .OneZero else .Start) rest)
  | .OneZero, b :: rest => keep b (rbspRun (if b = 0 then .TwoZero else .Start) rest)
  | .TwoZero, b :: rest =>
      if b = 3 then rbspRun .Start rest else keep b (rbspRun .Start rest)
  | .Skip, b :: rest => keep b (rbspRun .Skip rest)

/-- `RbspDecoder::emit` (`rbsp.rs` lines 164-168): forward a span to the
downstream handler only if it is non-empty.  The downstream handler is
modelled as the list of spans it receives, in order. -/
def emit (buf : List Nat) (spans : List (List Nat)) : List (List Nat) :=
  if buf.isEmpty then spans else buf :: spans

/-- Fuelled body of `RbspDecoder::push` (`rbsp.rs` lines 189-207): repeatedly
run `find_three`; at each find, emit the bytes before the
`emulation_prevention_three_byte`, drop that byte, reset the state to `Start`
and continue with the remainder; once nothing is found, emit the whole
remaining buffer.  Each recursive call drops at least one byte, so
`buf.length` fuel suffices (see `pushGo_spec`). -/
def pushGo : Nat → ParseState → List Nat → ParseState × List (List Nat)
  | 0, s, _ => (s, [])
  | fuel + 1, s, buf =>
      let r := find_three s buf
      if r.2.2 then
        let rest := pushGo fuel .Start (buf.drop (r.2.1 + 1))
        (rest.1, emit (buf.take r.2.1) rest.2)
      else
        (r.1, emit buf [])

/-- `RbspDecoder::push`: state after the call, plus the spans forwarded to the
downstream `NalHandler::push`, in order. -/
def RbspDecoder.push (s : ParseState) (buf : List Nat) : ParseState × List (List Nat) :=
  pushGo buf.length s buf

/-- A sequence of successive `RbspDecoder::push` calls starting from a given
state; collects all forwarded spans in order. -/
def pushSeq : ParseState → List (List Nat) → ParseState × List (List Nat)
  | s, [] => (s, [])
  | s, c :: cs =>
      let r := RbspDecoder.push s c
      let r' := pushSeq r.1 cs
      (r'.1, r.2 ++ r'.2)

/-- Decision procedure for "contains the three consecutive bytes `x y z`";
used for `00 00 03` (an escape) and `00 00 00` (the anomalous pattern that is
invalid in a framed bitstream). -/
def hasSeq (x y z : Nat) : List Nat → Bool
  | [] => false
  | [_] => false
  | [_, _] => false
  | a :: b :: c :: rest =>
      (decide (a = x) && decide (b = y) && decide (c = z)) || hasSeq x y z (b :: c :: rest)

/-- The bytes the scanner has "virtually" read when it sits in a given state:
`OneZero` means the stream so far ends in `00`, `TwoZero` in `00 00`. -/
def ghostBytes : ParseState → List Nat
  | .OneZero => [0]
  | .TwoZero => [0, 0]
  | _ => []

/-! ### `DecoderState` / `decode_nal` (`rbsp.rs` lines 221-269) -/

/-- The copy-on-write accumulator inside `decode_nal`: `owned = false` models
`Cow::Borrowed` (the buffer is still the untouched input), `owned = true`
models `Cow::Owned`. -/
structure DecoderState where
  owned : Bool
  data : List Nat
  index : Nat
deriving DecidableEq, Repr

/-- `DecoderState::push` (`rbsp.rs` lines 243-251): compare the incoming span
with the bytes of `data` at the write cursor; if equal just advance the
cursor, otherwise promote to owned (`Cow::to_mut`) and overwrite that slice.
(The Rust slice indexing would panic were the range out of bounds; within
`decode_nal` the total emitted length never exceeds the input length, so the
range is always in bounds.) -/
def DecoderState.push (st : DecoderState) (buf : List Nat) : DecoderState :=
  if (st.data.drop st.index).take buf.length = buf then
    { st with index := st.index + buf.length }
  else
    { owned := true,
      data := st.data.take st.index ++ buf ++ st.data.drop (st.index + buf.length),
      index := st.index + buf.length }

/-- `DecoderState::end` (`rbsp.rs` lines 253-257): truncate to the bytes
written, but only when the buffer is owned.  (`end` is a Lean keyword, hence
the name `finish`.) -/
def DecoderState.finish (st : DecoderState) : DecoderState :=
  if st.owned then { st with data := st.data.take st.index } else st

/-- `decode_nal` (`rbsp.rs` lines 223-269): drive `RbspDecoder` over the whole
buffer with the copy-on-write `DecoderState` handler, then `end`.  Returns
(is the result `Cow::Owned`?, result bytes). -/
def decode_nal (nal_unit : List Nat) : Bool × List Nat :=
  let spans := (RbspDecoder.push .Start nal_unit).2
  let st := spans.foldl DecoderState.push ⟨false, nal_unit, 0⟩
  let st' := st.finish
  (st'.owned, st'.data)

/-! ### `ByteReader` (`rbsp.rs` lines 42-103) -/

/-- The inner buffered source of a `ByteReader`, modelled as the list of
chunks it will deliver (as e.g. `head.chain(tail)` does in the crate's own
tests): `fill_buf` exposes the first non-empty remaining chunk, `consume`
eats from its front. -/
def srcFill (xs : List (List Nat)) : List Nat :=
  match xs.dropWhile List.isEmpty with
  | [] => []
  | c :: _ => c

/-- `consume` on the inner source: remove `amt` bytes from the front of the
current (first non-empty) chunk. -/
def srcConsume (xs : List (List Nat)) (amt : Nat) : List (List Nat) :=
  match xs.dropWhile List.isEmpty with
  | [] => []
  | c :: rest => c.drop amt :: rest

/-- `ByteReader` state: the inner source, the automaton state, and the count
`i` of bytes at the front of the current fill that are confirmed RBSP. -/
structure ByteReader where
  inner : List (List Nat)
  state : ParseState
  i : Nat
deriving DecidableEq, Repr

/-- Fuelled body of `ByteReader::fill_buf` (`rbsp.rs` lines 81-97): while no
bytes are confirmed, fetch the current chunk; an empty fill means end of
data; in state `Skip` discard one byte (the NAL header at construction, or a
found `0x03`) and retry; otherwise run `find_three` from offset 0, entering
`Skip` when it fires.  Returns the updated reader and the bytes
`chunk[0..i]` made available.  Each recursive call either consumes a byte or
moves a non-`Skip` state to `Skip`, so `2 * total bytes + 2` fuel suffices
(see `fill_buf`). -/
def fillBufGo : Nat → ByteReader → ByteReader × List Nat
  | 0, br => (br, [])
  | fuel + 1, br =>
      if br.i ≠ 0 then (br, (srcFill br.inner).take br.i)
      else
        let chunk := srcFill br.inner
        if chunk.isEmpty then (br, [])
        else
          match br.state with
          | .Skip => fillBufGo fuel ⟨srcConsume br.inner 1, .Start, 0⟩
          | s =>
              let r := find_three s chunk
              if r.2.2 then
                if r.2.1 = 0 then fillBufGo fuel ⟨br.inner, .Skip, 0⟩
                else (⟨br.inner, .Skip, r.2.1⟩, chunk.take r.2.1)
              else (⟨br.inner, r.1, r.2.1⟩, chunk.take r.2.1)

/-- `ByteReader::fill_buf` with its sufficient fuel. -/
def ByteReader.fill_buf (br : ByteReader) : ByteReader × List Nat :=
  fillBufGo (2 * br.inner.flatten.length + 2) br

/-- Fuelled loop of `Read::read_to_end` over a `ByteReader`: `fill_buf`, stop
on an empty fill, otherwise take all available bytes and `consume` them
(`ByteReader::consume`, `rbsp.rs` lines 99-102: `i -= amt` and
`inner.consume(amt)`).  Each round consumes at least one byte, so
`total bytes + 1` fuel suffices (see `read_to_end`). -/
def readToEndGo : Nat → ByteReader → List Nat
  | 0, _ => []
  | fuel + 1, br =>
      let r := br.fill_buf
      if r.2.isEmpty then []
      else
        r.2 ++ readToEndGo fuel ⟨srcConsume r.1.inner r.2.length, r.1.state, r.1.i - r.2.length⟩

/-- Reading a `ByteReader` to exhaustion (`std::io::Read::read_to_end`). -/
def read_to_end (br : ByteReader) : List Nat :=
  readToEndGo (br.inner.flatten.length + 1) br

/-- A freshly constructed `ByteReader` (`ByteReader::new`, `rbsp.rs` lines
54-64): state `Skip`, no confirmed bytes. -/
def ByteReader.new (chunks : List (List Nat)) : ByteReader :=
  ⟨chunks, .Skip, 0⟩

/-- Semantic summary of a `ByteReader` state: the confirmed bytes come out
verbatim, then (after the one-byte discard if the state is `Skip`) the rest
of the flattened source is decoded by the automaton. -/
def brSpec (br : ByteReader) : List Nat :=
  let flat := br.inner.flatten
  flat.take br.i ++
    (match br.state with
     | .Skip => (rbspRun .Start ((flat.drop br.i).drop 1)).2
     | s => (rbspRun s (flat.drop br.i)).2)


/-! ### `BitReader` (`rbsp.rs` lines 271-361)

The underlying byte source is modelled as a list of bits (MSB first) plus
what happens at its end: a clean end of stream (`eof`, yielding
`std::io::ErrorKind::UnexpectedEof` from `bitstream_io`) or some other I/O
failure (`other`). -/

/-- Outcome of reading past the available bits: clean end of source, or any
other underlying I/O failure. -/
inductive IoErrK where
  | eof
  | other
deriving DecidableEq, Repr

/-- A bit-level source: the remaining bits (MSB first; a fresh reader over a
byte source has `8 * number of bytes` bits) and its end behaviour. -/
structure BitSrc where
  bits : List Bool
  tail : IoErrK
deriving DecidableEq, Repr

/-- Decidable equality of `Except` results (for evaluating the models on
concrete inputs). -/
instance {e a : Type} [DecidableEq e] [DecidableEq a] : DecidableEq (Except e a) := fun x y =>
  match x, y with
  | .ok v, .ok w =>
      if h : v = w then .isTrue (by rw [h])
      else .isFalse (by intro hc; injection hc; exact h (by assumption))
  | .error v, .error w =>
      if h : v = w then .isTrue (by rw [h])
      else .isFalse (by intro hc; injection hc; exact h (by assumption))
  | .ok _, .error _ => .isFalse (by intro hc; exact Except.noConfusion hc)
  | .error _, .ok _ => .isFalse (by intro hc; exact Except.noConfusion hc)

/-- `bitstream_io`'s `read_bit` on the modelled source. -/
def read_bit (s : BitSrc) : Except IoErrK (Bool × BitSrc) :=
  match s.bits with
  | [] => .error s.tail
  | b :: rest => .ok (b, ⟨rest, s.tail⟩)

/-- Helper for `read_unary1`, structural on the bit list. -/
def readUnary1Bits : List Bool → IoErrK → Except IoErrK (Nat × BitSrc)
  | [], t => .error t
  | true :: rest, t => .ok (0, ⟨rest, t⟩)
  | false :: rest, t =>
      match readUnary1Bits rest t with
      | .ok (n, s') => .ok (n + 1, s')
      | .error e => .error e

/-- `bitstream_io`'s `read_unary1`: counts the `0` bits up to and including a
terminating `1` bit, returning the count of zeros.  (This polarity is pinned
down by the crate's own tests `read_ue_overflow` and
`bitreader_has_more_data`.) -/
def read_unary1 (s : BitSrc) : Except IoErrK (Nat × BitSrc) :=
  readUnary1Bits s.bits s.tail

/-- Helper for `read_bits`: big-endian accumulation `acc := 2*acc + bit`,
exactly how `bitstream_io`'s big-endian `read` assembles a value. -/
def readBitsAux : Nat → Nat → BitSrc → Except IoErrK (Nat × BitSrc)
  | acc, 0, s => .ok (acc, s)
  | acc, n + 1, s =>
      match read_bit s with
      | .error e => .error e
      | .ok (b, s') => readBitsAux (2 * acc + (if b then 1 else 0)) n s'

/-- An `n`-bit fixed-width unsigned read (`BitReader::read_u8/u16/u32` all
delegate to `bitstream_io`'s `read(bit_count)`). -/
def read_bits (n : Nat) (s : BitSrc) : Except IoErrK (Nat × BitSrc) :=
  readBitsAux 0 n s

/-- `BitReaderError` (`rbsp.rs` lines 271-278).  The `&'static str`
diagnostic name carried by the Rust constructors is used solely for error
attribution, never for behaviour, and is omitted. -/
inductive BitReaderError where
  | ReaderErrorFor (e : IoErrK)
  | ExpGolombTooLarge
deriving DecidableEq, Repr

/-- `BitReader::read_ue` (`rbsp.rs` lines 308-318): read a unary count with
`read_unary1`; more than 31 leading zeros is `ExpGolombTooLarge`; otherwise
read `count` further bits and return `(1 << count) - 1 + val` (all these
`u32` operations stay below `2^32`, see `golomb_overflow_free`). -/
def read_ue (s : BitSrc) : Except BitReaderError (Nat × BitSrc) :=
  match read_unary1 s with
  | .error e => .error (.ReaderErrorFor e)
  | .ok (count, s') =>
      if 31 < count then .error .ExpGolombTooLarge
      else if 0 < count then
        match read_bits count s' with
        | .error e => .error (.ReaderErrorFor e)
        | .ok (val, s'') => .ok ((1 <<< count) - 1 + val, s'')
      else .ok (0, s')

/-- `golomb_to_signed` (`rbsp.rs` lines 358-361), with `i32` arithmetic
carried out in `Int`:
`sign = ((val & 1) << 1) - 1`, result `= ((val >> 1) + (val & 1)) * sign`.
`golomb_overflow_free` shows every intermediate fits an `i32` for the values
`read_ue` can produce, so the `Int` model agrees with the Rust `i32` one. -/
def golomb_to_signed (val : Nat) : Int :=
  (((val >>> 1 : Nat) : Int) + ((val &&& 1 : Nat) : Int)) * (2 * ((val &&& 1 : Nat) : Int) - 1)

/-- `BitReader::read_se` (`rbsp.rs` lines 320-322). -/
def read_se (s : BitSrc) : Except BitReaderError (Int × BitSrc) :=
  match read_ue s with
  | .error e => .error e
  | .ok (v, s') => .ok (golomb_to_signed v, s')

/-- `BitReader::has_more_rbsp_data` (`rbsp.rs` lines 344-356): on a clone of
the reader (`throwaway`), skip one bit (the putative `rbsp_stop_one_bit`) and
attempt a unary read; `UnexpectedEof` means "no more data" (`false`), any
other error propagates, success means "more data" (`true`).  The reader
itself is returned untouched (second component). -/
def has_more_rbsp_data (s : BitSrc) : Except BitReaderError Bool × BitSrc :=
  let probe : Except IoErrK Unit :=
    match read_bit s with
    | .error e => .error e
    | .ok (_, s1) =>
        match read_unary1 s1 with
        | .error e => .error e
        | .ok _ => .ok ()
  (match probe with
   | .error .eof => .ok false
   | .error .other => .error (.ReaderErrorFor .other)
   | .ok _ => .ok true, s)

/-- Helper for `read_ue_spec_words`: counts the `1` bits up to and including a
terminating `0` bit (the opposite polarity of `read_unary1`). -/
def readUnary0Bits : List Bool → IoErrK → Except IoErrK (Nat × BitSrc)
  | [], t => .error t
  | false :: rest, t => .ok (0, ⟨rest, t⟩)
  | true :: rest, t =>
      match readUnary0Bits rest t with
      | .ok (n, s') => .ok (n + 1, s')
      | .error e => .error e

/-- The Exp-Golomb reader as the specification words it for C3: "read a unary
prefix of consecutive 1-bits terminated by a 0-bit, call its length
leadingBits", then the same overflow check and suffix computation.  Stated
only to be compared against the actual `read_ue`. -/
def read_ue_spec_words (s : BitSrc) : Except BitReaderError (Nat × BitSrc) :=
  match readUnary0Bits s.bits s.tail with
  | .error e => .error (.ReaderErrorFor e)
  | .ok (count, s') =>
      if 31 < count then .error .ExpGolombTooLarge
      else if 0 < count then
        match read_bits count s' with
        | .error e => .error (.ReaderErrorFor e)
        | .ok (val, s'') => .ok ((1 <<< count) - 1 + val, s'')
      else .ok (0, s')

/-- The bits of one byte, most significant first. -/
def byteBits (b : Nat) : List Bool :=
  [b.testBit 7, b.testBit 6, b.testBit 5, b.testBit 4,
   b.testBit 3, b.testBit 2, b.testBit 1, b.testBit 0]

/-- The bit stream of a byte buffer, MSB first within each byte. -/
def bytesToBits (bs : List Nat) : List Bool :=
  (bs.map byteBits).flatten

/-- Big-endian value of a bit list. -/
def bitsToNat (bs : List Bool) : Nat :=
  bs.foldl (fun a b => 2 * a + (if b then 1 else 0)) 0

/-! ### An observer language over `BitReader` operations (for the frame
property of `has_more_rbsp_data`). -/

/-- One `BitRead` trait operation. -/
inductive BitOp where
  | rBool
  | rBits (n : Nat)
  | rUe
  | rSe
  | rMore
deriving DecidableEq, Repr

/-- Result of one `BitRead` operation. -/
inductive BitVal where
  | vB (b : Bool)
  | vN (n : Nat)
  | vI (i : Int)
  | vE (e : BitReaderError)
deriving DecidableEq, Repr

/-- Run one operation, returning its observable result and the reader state
afterwards (on an error the reader is left where the failing operation put
it; for a pure bit source only the successful cases ever advance it). -/
def runOp (s : BitSrc) : BitOp → BitVal × BitSrc
  | .rBool =>
      match read_bit s with
      | .ok (b, s') => (.vB b, s')
      | .error e => (.vE (.ReaderErrorFor e), s)
  | .rBits n =>
      match read_bits n s with
      | .ok (v, s') => (.vN v, s')
      | .error e => (.vE (.ReaderErrorFor e), s)
  | .rUe =>
      match read_ue s with
      | .ok (v, s') => (.vN v, s')
      | .error e => (.vE e, s)
  | .rSe =>
      match read_se s with
      | .ok (v, s') => (.vI v, s')
      | .error e => (.vE e, s)
  | .rMore =>
      match has_more_rbsp_data s with
      | (.ok b, s') => (.vB b, s')
      | (.error e, s') => (.vE e, s')

/-- Run a sequence of operations, collecting the observable results. -/
def runOps : BitSrc → List BitOp → List BitVal
  | _, [] => []
  | s, op :: ops =>
      let r := runOp s op
      r.1 :: runOps r.2 ops

/-! ### The crate's own test vector (`push_decoder` / `byte_reader` tests). -/

/-- The escaped NAL unit from the crate's tests (header byte `0x67`
included). -/
def nalData : List Nat :=
  [0x67, 0x64, 0x00, 0x0A, 0xAC, 0x72, 0x84, 0x44, 0x26, 0x84, 0x00, 0x00, 0x03,
   0x00, 0x04, 0x00, 0x00, 0x03, 0x00, 0xCA, 0x3C, 0x48, 0x96, 0x11, 0x80]

/-- Its RBSP with the header auto-dropped (the `byte_reader` test's expected
output). -/
def rbspData : List Nat :=
  [0x64, 0x00, 0x0A, 0xAC, 0x72, 0x84, 0x44, 0x26, 0x84, 0x00, 0x00,
   0x00, 0x04, 0x00, 0x00, 0x00, 0xCA, 0x3C, 0x48, 0x96, 0x11, 0x80]


/-! ## Lemmas: the escape-removal scanner -/

theorem emit_flatten (buf : List Nat) (spans : List (List Nat)) :
    (emit buf spans).flatten = buf ++ spans.flatten := by
  unfold emit
  split
  · simp_all
  · simp

theorem rbspRun_nil (s : ParseState) : rbspRun s [] = (s, []) := by
  cases s <;> rfl

theorem rbspRun_ne_skip : ∀ (buf : List Nat) (s : ParseState), s ≠ .Skip →
    (rbspRun s buf).1 ≠ .Skip := by
  intro buf
  induction buf with
  | nil => intro s h; simpa [rbspRun_nil] using h
  | cons b rest ih =>
    intro s h
    cases s with
    | Start =>
      by_cases hb : b = 0 <;> simp only [rbspRun, keep, hb, if_true, if_false, reduceIte] <;>
        exact ih _ (by simp)
    | OneZero =>
      by_cases hb : b = 0 <;> simp only [rbspRun, keep, hb, if_true, if_false, reduceIte] <;>
        exact ih _ (by simp)
    | TwoZero =>
      by_cases hb : b = 3 <;> simp only [rbspRun, keep, hb, if_true, if_false, reduceIte] <;>
        exact ih _ (by simp)
    | Skip => exact absurd rfl h

theorem rbspRun_append : ∀ (a b : List Nat) (s : ParseState),
    rbspRun s (a ++ b) =
      ((rbspRun (rbspRun s a).1 b).1, (rbspRun s a).2 ++ (rbspRun (rbspRun s a).1 b).2) := by
  intro a
  induction a with
  | nil => intro b s; simp [rbspRun_nil]
  | cons x rest ih =>
    intro b s
    cases s with
    | Start => by_cases hx : x = 0 <;> simp [rbspRun, keep, hx, ih]
    | OneZero => by_cases hx : x = 0 <;> simp [rbspRun, keep, hx, ih]
    | TwoZero => by_cases hx : x = 3 <;> simp [rbspRun, keep, hx, ih]
    | Skip => simp [rbspRun, keep, ih]

/-- What `find_three` guarantees about a buffer: scan result `r` and
automaton result `out` fit together.  If nothing was found the whole buffer
was scanned, none of it is dropped, and the states agree; if an
`emulation_prevention_three_byte` was found at index `r.2.1`, the automaton
output is everything before it followed by the decode of everything after it
from `Start`. -/
def FTSpec (buf : List Nat) (r : ParseState × Nat × Bool) (out : ParseState × List Nat) : Prop :=
  (r.2.2 = false → r.2.1 = buf.length ∧ out.1 = r.1 ∧ out.2 = buf) ∧
  (r.2.2 = true → r.2.1 < buf.length ∧
    out.1 = (rbspRun .Start (buf.drop (r.2.1 + 1))).1 ∧
    out.2 = buf.take r.2.1 ++ (rbspRun .Start (buf.drop (r.2.1 + 1))).2)

/-- One non-firing scanner step preserves `FTSpec`. -/
theorem FTSpec.step (b : Nat) (rest : List Nat) (r : ParseState × Nat × Bool)
    (out : ParseState × List Nat) (h : FTSpec rest r out) :
    FTSpec (b :: rest) (step1 r) (keep b out) := by
  obtain ⟨h1, h2⟩ := h
  constructor
  · intro hf
    obtain ⟨e1, e2, e3⟩ := h1 hf
    exact ⟨by simp [step1, e1], by simp [step1, keep, e2], by simp [step1, keep, e3]⟩
  · intro hf
    obtain ⟨e1, e2, e3⟩ := h2 hf
    refine ⟨by simp [step1]; omega, ?_, ?_⟩
    · simpa [step1, keep, List.drop_succ_cons] using e2
    · simp [step1, keep, List.take_succ_cons, List.drop_succ_cons, e3]

/-- The central scan lemma: `find_three` computes exactly the next firing
point of the single-pass automaton `rbspRun`. -/
theorem find_three_spec : ∀ (buf : List Nat) (s : ParseState), s ≠ .Skip →
    FTSpec buf (find_three s buf) (rbspRun s buf) := by
  intro buf
  induction buf with
  | nil =>
    intro s _
    constructor
    · intro _; simp [find_three, rbspRun_nil]
    · intro h; simp [find_three] at h
  | cons b rest ih =>
    intro s hs
    cases s with
    | Start =>
      by_cases hb : b = 0 <;>
        simp only [find_three, rbspRun, hb, if_true, if_false, reduceIte] <;>
        exact FTSpec.step _ _ _ _ (ih _ (by simp))
    | OneZero =>
      by_cases hb : b = 0 <;>
        simp only [find_three, rbspRun, hb, if_true, if_false, reduceIte] <;>
        exact FTSpec.step _ _ _ _ (ih _ (by simp))
    | TwoZero =>
      by_cases hb : b = 3
      · simp only [find_three, rbspRun, hb, if_true, reduceIte]
        constructor
        · intro hf; simp at hf
        · intro _
          exact ⟨Nat.succ_pos _, by simp, by simp⟩
      · simp only [find_three, rbspRun, hb, if_false, reduceIte]
        exact FTSpec.step _ _ _ _ (ih _ (by simp))
    | Skip => exact absurd rfl hs

/-- `RbspDecoder::push` refines the single-pass automaton: final state and
concatenated forwarded bytes agree with `rbspRun`, for any sufficient fuel. -/
theorem pushGo_spec : ∀ (fuel : Nat) (s : ParseState) (buf : List Nat),
    buf.length ≤ fuel → s ≠ .Skip →
    (pushGo fuel s buf).1 = (rbspRun s buf).1 ∧
    ((pushGo fuel s buf).2).flatten = (rbspRun s buf).2 := by
  intro fuel
  induction fuel with
  | zero =>
    intro s buf hlen _
    have : buf = [] := List.length_eq_zero.mp (Nat.le_zero.mp hlen)
    subst this
    simp [pushGo, rbspRun_nil]
  | succ fuel ih =>
    intro s buf hlen hs
    obtain ⟨h1, h2⟩ := find_three_spec buf s hs
    by_cases hf : (find_three s buf).2.2 = true
    · obtain ⟨e1, e2, e3⟩ := h2 hf
      have hrec := ih .Start (buf.drop ((find_three s buf).2.1 + 1))
        (by simp; omega) (by simp)
      simp only [pushGo, hf, if_true, reduceIte]
      exact ⟨by rw [hrec.1, e2], by rw [emit_flatten, hrec.2, e3]⟩
    · replace hf : (find_three s buf).2.2 = false := by simpa using hf
      obtain ⟨e1, e2, e3⟩ := h1 hf
      simp only [pushGo, hf, if_false, Bool.false_eq_true, reduceIte]
      exact ⟨e2.symm, by rw [emit_flatten, e3]; simp⟩

theorem push_spec (s : ParseState) (buf : List Nat) (hs : s ≠ .Skip) :
    (RbspDecoder.push s buf).1 = (rbspRun s buf).1 ∧
    ((RbspDecoder.push s buf).2).flatten = (rbspRun s buf).2 :=
  pushGo_spec buf.length s buf le_rfl hs


/-! ## Lemmas: the pull-style `ByteReader` -/

theorem flatten_decomp (xs : List (List Nat)) :
    xs.flatten = srcFill xs ++ ((xs.dropWhile List.isEmpty).drop 1).flatten := by
  induction xs with
  | nil => rfl
  | cons c rest ih =>
    by_cases hc : c.isEmpty
    · have hc' : c = [] := by simpa using hc
      subst hc'
      simpa [srcFill, List.dropWhile] using ih
    · have hc' : c.isEmpty = false := by simpa using hc
      simp [srcFill, List.dropWhile, hc']

theorem srcFill_isEmpty : ∀ (xs : List (List Nat)),
    (srcFill xs).isEmpty = true → xs.flatten = [] := by
  intro xs
  induction xs with
  | nil => intro _; rfl
  | cons c rest ih =>
    intro h
    by_cases hc : c.isEmpty
    · have hc' : c = [] := by simpa using hc
      subst hc'
      simp only [List.flatten_cons, List.nil_append]
      exact ih (by simpa [srcFill, List.dropWhile] using h)
    · have hc' : c.isEmpty = false := by simpa using hc
      simp [srcFill, List.dropWhile, hc'] at h

theorem srcConsume_flatten : ∀ (xs : List (List Nat)) (amt : Nat),
    amt ≤ (srcFill xs).length →
    (srcConsume xs amt).flatten = xs.flatten.drop amt := by
  intro xs
  induction xs with
  | nil => intro amt _; simp [srcConsume]
  | cons c rest ih =>
    intro amt h
    by_cases hc : c.isEmpty
    · have hc' : c = [] := by simpa using hc
      subst hc'
      simp only [List.flatten_cons, List.nil_append]
      exact ih amt (by simpa [srcFill, List.dropWhile] using h)
    · have hc' : c.isEmpty = false := by simpa using hc
      have hfill : srcFill (c :: rest) = c := by simp [srcFill, List.dropWhile, hc']
      rw [hfill] at h
      simp only [srcConsume, List.dropWhile, hc', List.flatten_cons]
      rw [List.drop_append_of_le_length h]

theorem brSpec_skip (xs : List (List Nat)) (i : Nat) :
    brSpec ⟨xs, .Skip, i⟩ =
      xs.flatten.take i ++ (rbspRun .Start ((xs.flatten.drop i).drop 1)).2 := rfl

theorem brSpec_ne_skip (xs : List (List Nat)) (st : ParseState) (i : Nat) (h : st ≠ .Skip) :
    brSpec ⟨xs, st, i⟩ = xs.flatten.take i ++ (rbspRun st (xs.flatten.drop i)).2 := by
  cases st with
  | Skip => exact absurd rfl h
  | Start => rfl
  | OneZero => rfl
  | TwoZero => rfl


theorem brSpec_congr (xs ys : List (List Nat)) (st : ParseState) (i : Nat)
    (h : xs.flatten = ys.flatten) : brSpec ⟨xs, st, i⟩ = brSpec ⟨ys, st, i⟩ := by
  cases st <;> simp [brSpec, h]

theorem fillBufGo_succ_empty (fuel : Nat) (inner : List (List Nat)) (st : ParseState)
    (he : (srcFill inner).isEmpty = true) :
    fillBufGo (fuel + 1) ⟨inner, st, 0⟩ = (⟨inner, st, 0⟩, []) := by
  cases st <;> simp [fillBufGo, he]

theorem fillBufGo_succ_skip (fuel : Nat) (inner : List (List Nat))
    (hne : (srcFill inner).isEmpty = false) :
    fillBufGo (fuel + 1) ⟨inner, .Skip, 0⟩ = fillBufGo fuel ⟨srcConsume inner 1, .Start, 0⟩ := by
  simp [fillBufGo, hne]

theorem fillBufGo_succ_scan (fuel : Nat) (inner : List (List Nat)) (st : ParseState)
    (hst : st ≠ .Skip) (hne : (srcFill inner).isEmpty = false) :
    fillBufGo (fuel + 1) ⟨inner, st, 0⟩ =
      (if (find_three st (srcFill inner)).2.2 then
        if (find_three st (srcFill inner)).2.1 = 0 then fillBufGo fuel ⟨inner, .Skip, 0⟩
        else (⟨inner, .Skip, (find_three st (srcFill inner)).2.1⟩,
              (srcFill inner).take (find_three st (srcFill inner)).2.1)
      else (⟨inner, (find_three st (srcFill inner)).1, (find_three st (srcFill inner)).2.1⟩,
            (srcFill inner).take (find_three st (srcFill inner)).2.1)) := by
  cases st with
  | Skip => exact absurd rfl hst
  | Start => simp [fillBufGo, hne]
  | OneZero => simp [fillBufGo, hne]
  | TwoZero => simp [fillBufGo, hne]

/-- Decoding a buffer that starts with a chunk in which `find_three` fires at
index `n`: output is the prefix before the `0x03`, then the decode of
everything after it (across the chunk boundary) from `Start`. -/
theorem rbspRun_fire_decomp (st : ParseState) (chunk rf : List Nat) (f1 : ParseState) (n : Nat)
    (hst : st ≠ .Skip) (hft : find_three st chunk = (f1, n, true)) :
    n < chunk.length ∧
    (rbspRun st (chunk ++ rf)).2 =
      chunk.take n ++ (rbspRun .Start ((chunk ++ rf).drop (n + 1))).2 := by
  obtain ⟨-, h2⟩ := find_three_spec chunk st hst
  rw [hft] at h2
  dsimp only at h2
  obtain ⟨e1, e2, e3⟩ := h2 rfl
  refine ⟨e1, ?_⟩
  rw [List.drop_append_of_le_length (by omega), rbspRun_append,
    rbspRun_append (chunk.drop (n + 1)) rf .Start]
  simp [e2, e3, List.append_assoc]

/-- Decoding a buffer that starts with a chunk in which `find_three` does not
fire: the whole chunk comes out verbatim and the scan state carries over to
the rest. -/
theorem rbspRun_nofire_decomp (st : ParseState) (chunk rf : List Nat) (f1 : ParseState) (n : Nat)
    (hst : st ≠ .Skip) (hft : find_three st chunk = (f1, n, false)) :
    n = chunk.length ∧ (rbspRun st chunk).1 = f1 ∧
    (rbspRun st (chunk ++ rf)).2 = chunk ++ (rbspRun f1 rf).2 := by
  obtain ⟨h1, -⟩ := find_three_spec chunk st hst
  rw [hft] at h1
  dsimp only at h1
  obtain ⟨e1, e2, e3⟩ := h1 rfl
  refine ⟨e1, e2, ?_⟩
  rw [rbspRun_append, e3, e2]

/-- Full characterization of `fill_buf`'s fuelled loop, for any reachable
reader (`i = 0`) and sufficient fuel: the bytes made available are the
confirmed slice of the current fill, they stay within the current chunk, the
source only shrinks, an empty result means the decode is finished, and
consuming the returned bytes leaves a reader whose summary accounts for
exactly the rest of the output. -/
theorem fillBufGo_spec : ∀ (fuel : Nat) (br : ByteReader),
    br.i = 0 →
    2 * br.inner.flatten.length + (if br.state = .Skip then 1 else 2) ≤ fuel →
    (fillBufGo fuel br).2 = (srcFill (fillBufGo fuel br).1.inner).take (fillBufGo fuel br).1.i ∧
    (fillBufGo fuel br).1.i ≤ (srcFill (fillBufGo fuel br).1.inner).length ∧
    (fillBufGo fuel br).1.inner.flatten.length ≤ br.inner.flatten.length ∧
    ((fillBufGo fuel br).2.isEmpty = true → brSpec br = []) ∧
    brSpec br = (fillBufGo fuel br).2 ++
      brSpec ⟨srcConsume (fillBufGo fuel br).1.inner ((fillBufGo fuel br).2).length,
              (fillBufGo fuel br).1.state, 0⟩ ∧
    ((fillBufGo fuel br).2).length = (fillBufGo fuel br).1.i := by
  intro fuel
  induction fuel with
  | zero =>
    intro br _ hm
    exfalso
    by_cases hs : br.state = .Skip <;> simp [hs] at hm
  | succ fuel ih =>
    intro br h0 hm
    obtain ⟨inner, st, i⟩ := br
    simp only at h0 hm
    subst h0
    by_cases hche : (srcFill inner).isEmpty = true
    · rw [fillBufGo_succ_empty fuel inner st hche]
      have hflat : inner.flatten = [] := srcFill_isEmpty inner hche
      have hb : brSpec ⟨inner, st, 0⟩ = [] := by
        cases st <;> simp [brSpec, hflat, rbspRun_nil]
      have hb2 : brSpec ⟨srcConsume inner 0, st, 0⟩ = brSpec ⟨inner, st, 0⟩ :=
        brSpec_congr _ _ _ _ (by rw [srcConsume_flatten inner 0 (Nat.zero_le _)]; simp)
      refine ⟨by simp, by simp, le_rfl, fun _ => hb, ?_, by simp⟩
      dsimp only
      simp only [List.length_nil, List.nil_append]
      rw [hb2, hb]
    · replace hche : (srcFill inner).isEmpty = false := by simpa using hche
      have hlen1 : 1 ≤ (srcFill inner).length := by
        rcases hfe : srcFill inner with _ | ⟨a, b⟩
        · rw [hfe] at hche; simp at hche
        · simp
      have hfd := flatten_decomp inner
      have hflen : (srcFill inner).length ≤ inner.flatten.length := by
        rw [hfd]; simp
      by_cases hs : st = .Skip
      · subst hs
        rw [if_pos rfl] at hm
        rw [fillBufGo_succ_skip fuel inner hche]
        have hc1 : (srcConsume inner 1).flatten = inner.flatten.drop 1 :=
          srcConsume_flatten inner 1 hlen1
        have hkey : brSpec ⟨inner, .Skip, 0⟩ = brSpec ⟨srcConsume inner 1, .Start, 0⟩ := by
          rw [brSpec_skip, brSpec_ne_skip _ _ _ (by simp), hc1]
          simp
        have hmm : 2 * (srcConsume inner 1).flatten.length +
            (if ParseState.Start = ParseState.Skip then 1 else 2) ≤ fuel := by
          rw [hc1, if_neg (fun h => ParseState.noConfusion h)]
          simp only [List.length_drop]
          omega
        obtain ⟨c1, c2, c3, c4, c5, c6⟩ := ih ⟨srcConsume inner 1, .Start, 0⟩ rfl hmm
        refine ⟨c1, c2, ?_, fun he => ?_, ?_, c6⟩
        · calc (fillBufGo fuel ⟨srcConsume inner 1, .Start, 0⟩).1.inner.flatten.length
              ≤ (srcConsume inner 1).flatten.length := c3
            _ ≤ inner.flatten.length := by rw [hc1]; simp
        · rw [hkey]; exact c4 he
        · rw [hkey]; exact c5
      · rw [if_neg hs] at hm
        rw [fillBufGo_succ_scan fuel inner st hs hche]
        rcases hft : find_three st (srcFill inner) with ⟨f1, n, found⟩
        dsimp only
        cases found with
        | true =>
          rw [if_pos rfl]
          obtain ⟨e1, hfire⟩ := rbspRun_fire_decomp st (srcFill inner)
            ((inner.dropWhile List.isEmpty).drop 1).flatten f1 n hs hft
          by_cases hn : n = 0
          · subst hn
            rw [if_pos rfl]
            have hkey : brSpec ⟨inner, st, 0⟩ = brSpec ⟨inner, .Skip, 0⟩ := by
              rw [brSpec_skip, brSpec_ne_skip _ _ _ hs]
              simp only [List.drop_zero, List.take_zero, List.nil_append]
              conv_lhs => rw [hfd]
              rw [hfire]
              simp only [List.take_zero, List.nil_append, zero_add]
              rw [← hfd]
            have hmm : 2 * inner.flatten.length +
                (if ParseState.Skip = ParseState.Skip then 1 else 2) ≤ fuel := by
              rw [if_pos rfl]
              omega
            obtain ⟨c1, c2, c3, c4, c5, c6⟩ := ih ⟨inner, .Skip, 0⟩ rfl hmm
            exact ⟨c1, c2, c3, fun he => hkey ▸ c4 he, hkey ▸ c5, c6⟩
          · rw [if_neg hn]
            have htlen : ((srcFill inner).take n).length = n := by
              rw [List.length_take]; omega
            refine ⟨rfl, by dsimp only; omega, le_rfl, fun he => ?_, ?_, htlen⟩
            · exfalso
              rw [List.isEmpty_iff_length_eq_zero, htlen] at he
              exact hn he
            · dsimp only
              rw [htlen, brSpec_skip, brSpec_ne_skip _ _ _ hs]
              simp only [List.drop_zero, List.take_zero, List.nil_append]
              conv_lhs => rw [hfd]
              rw [hfire]
              have hcf : (srcConsume inner n).flatten = inner.flatten.drop n :=
                srcConsume_flatten inner _ (by omega)
              rw [hcf, List.drop_drop, ← hfd]
        | false =>
          rw [if_neg (by simp)]
          obtain ⟨e1, e2, hnof⟩ := rbspRun_nofire_decomp st (srcFill inner)
            ((inner.dropWhile List.isEmpty).drop 1).flatten f1 n hs hft
          have hnsk : f1 ≠ .Skip := by
            rw [← e2]; exact rbspRun_ne_skip _ st hs
          have htlen : ((srcFill inner).take n).length = n := by
            rw [List.length_take]; omega
          refine ⟨rfl, by dsimp only; omega, le_rfl, fun he => ?_, ?_, htlen⟩
          · exfalso
            rw [List.isEmpty_iff_length_eq_zero, htlen] at he
            omega
          · dsimp only
            rw [htlen, brSpec_ne_skip _ _ _ hs, brSpec_ne_skip _ _ _ hnsk]
            simp only [List.drop_zero, List.take_zero, List.nil_append]
            conv_lhs => rw [hfd]
            rw [hnof]
            have hcf : (srcConsume inner n).flatten = inner.flatten.drop n :=
              srcConsume_flatten inner _ (by omega)
            rw [hcf, hfd, e1, List.drop_left, List.take_length]


theorem fill_buf_spec (br : ByteReader) (h0 : br.i = 0) :
    br.fill_buf.2 = (srcFill br.fill_buf.1.inner).take br.fill_buf.1.i ∧
    br.fill_buf.1.i ≤ (srcFill br.fill_buf.1.inner).length ∧
    br.fill_buf.1.inner.flatten.length ≤ br.inner.flatten.length ∧
    (br.fill_buf.2.isEmpty = true → brSpec br = []) ∧
    brSpec br = br.fill_buf.2 ++
      brSpec ⟨srcConsume br.fill_buf.1.inner br.fill_buf.2.length, br.fill_buf.1.state, 0⟩ ∧
    br.fill_buf.2.length = br.fill_buf.1.i := by
  unfold ByteReader.fill_buf
  exact fillBufGo_spec _ br h0
    (by by_cases hs : br.state = .Skip <;> simp only [hs, if_pos, if_neg, reduceIte] <;> omega)

/-- `read_to_end` of a reachable `ByteReader` produces exactly the semantic
summary `brSpec`: the confirmed bytes, then the automaton decode of the rest
of the flattened source (after the `Skip` discard if pending). -/
theorem readToEndGo_spec : ∀ (fuel : Nat) (br : ByteReader),
    br.i = 0 → br.inner.flatten.length < fuel →
    readToEndGo fuel br = brSpec br := by
  intro fuel
  induction fuel with
  | zero => intro br _ h; exact absurd h (by omega)
  | succ fuel ih =>
    intro br h0 hlt
    obtain ⟨c1, c2, c3, c4, c5, c6⟩ := fill_buf_spec br h0
    simp only [readToEndGo]
    by_cases he : br.fill_buf.2.isEmpty = true
    · rw [if_pos he]
      exact (c4 he).symm
    · replace he : br.fill_buf.2.isEmpty = false := by simpa using he
      rw [he]
      simp only [Bool.false_eq_true, if_false, reduceIte]
      have hpos : 0 < br.fill_buf.2.length := by
        rcases hq : br.fill_buf.2 with _ | _
        · rw [hq] at he; simp at he
        · simp [hq]
      have hflat2 : (srcConsume br.fill_buf.1.inner br.fill_buf.2.length).flatten
          = br.fill_buf.1.inner.flatten.drop br.fill_buf.2.length :=
        srcConsume_flatten _ _ (by rw [c6]; exact c2)
      have hi0 : br.fill_buf.1.i - br.fill_buf.2.length = 0 := by omega
      have hflen2 : (srcFill br.fill_buf.1.inner).length ≤
          br.fill_buf.1.inner.flatten.length := by
        rw [flatten_decomp br.fill_buf.1.inner]
        simp
      have hrec := ih ⟨srcConsume br.fill_buf.1.inner br.fill_buf.2.length,
          br.fill_buf.1.state, 0⟩ rfl (by
        dsimp only
        rw [hflat2]
        simp only [List.length_drop]
        omega)
      rw [hi0, hrec]
      exact c5.symm

theorem read_to_end_spec (br : ByteReader) (h0 : br.i = 0) :
    read_to_end br = brSpec br := by
  unfold read_to_end
  exact readToEndGo_spec _ br h0 (Nat.lt_succ_self _)

/-- Reading a freshly constructed `ByteReader` to exhaustion: one leading
byte of the concatenated source is dropped unconditionally, the rest is
decoded by the automaton from `Start`.  In particular the result depends only
on the concatenation of the chunks, not on the chunking. -/
theorem byte_reader_output (chunks : List (List Nat)) :
    read_to_end (ByteReader.new chunks) = (rbspRun .Start (chunks.flatten.drop 1)).2 := by
  unfold ByteReader.new
  rw [read_to_end_spec ⟨chunks, .Skip, 0⟩ rfl, brSpec_skip]
  simp


/-! ## Lemmas: three-byte patterns -/

theorem hasSeq_iff (x y z : Nat) : ∀ (l : List Nat),
    hasSeq x y z l = true ↔ ∃ p q, l = p ++ x :: y :: z :: q := by
  intro l
  match l with
  | [] =>
    simp only [hasSeq, Bool.false_eq_true, false_iff]
    rintro ⟨p, q, hpq⟩
    have := congrArg List.length hpq
    simp at this
    omega
  | [a] =>
    simp only [hasSeq, Bool.false_eq_true, false_iff]
    rintro ⟨p, q, hpq⟩
    have := congrArg List.length hpq
    simp at this
    omega
  | [a, b] =>
    simp only [hasSeq, Bool.false_eq_true, false_iff]
    rintro ⟨p, q, hpq⟩
    have := congrArg List.length hpq
    simp at this
    omega
  | a :: b :: c :: r =>
    simp only [hasSeq, Bool.or_eq_true, Bool.and_eq_true, decide_eq_true_eq]
    constructor
    · intro h
      rcases h with ⟨⟨hx, hy⟩, hz⟩ | h
      · exact ⟨[], r, by simp [hx, hy, hz]⟩
      · obtain ⟨p, q, hpq⟩ := (hasSeq_iff x y z (b :: c :: r)).mp h
        exact ⟨a :: p, q, by simp [hpq]⟩
    · rintro ⟨p, q, hpq⟩
      rcases p with _ | ⟨e, p'⟩
      · rw [List.nil_append] at hpq
        injection hpq with h1 h2
        injection h2 with h2 h3
        injection h3 with h3 h4
        exact Or.inl ⟨⟨h1, h2⟩, h3⟩
      · rw [List.cons_append] at hpq
        injection hpq with h1 h2
        exact Or.inr ((hasSeq_iff x y z (b :: c :: r)).mpr ⟨p', q, h2⟩)

theorem hasSeq_false_iff (x y z : Nat) (l : List Nat) :
    hasSeq x y z l = false ↔ ∀ p q, l ≠ p ++ x :: y :: z :: q := by
  constructor
  · intro h p q hc
    exact absurd ((hasSeq_iff x y z l).mpr ⟨p, q, hc⟩) (by simp [h])
  · intro h
    cases hq : hasSeq x y z l
    · rfl
    · obtain ⟨p, q, hc⟩ := (hasSeq_iff x y z l).mp hq
      exact absurd hc (h p q)

theorem hasSeq_append_left_false (x y z : Nat) (p l : List Nat)
    (h : hasSeq x y z (p ++ l) = false) : hasSeq x y z l = false := by
  rw [hasSeq_false_iff] at h ⊢
  intro a b hc
  exact h (p ++ a) b (by simp [hc])

theorem hasSeq_cons_false (x y z a : Nat) (l : List Nat)
    (h : hasSeq x y z (a :: l) = false) : hasSeq x y z l = false :=
  hasSeq_append_left_false x y z [a] l h

theorem hasSeq_take_false (x y z : Nat) (k : Nat) (l : List Nat)
    (h : hasSeq x y z l = false) : hasSeq x y z (l.take k) = false := by
  rw [hasSeq_false_iff] at h ⊢
  intro a b hc
  refine h a (b ++ l.drop k) ?_
  conv_lhs => rw [← List.take_append_drop k l]
  rw [hc]
  simp

theorem hasSeq_drop_false (x y z : Nat) (k : Nat) (l : List Nat)
    (h : hasSeq x y z l = false) : hasSeq x y z (l.drop k) = false :=
  hasSeq_append_left_false x y z (l.take k) (l.drop k)
    (by rw [List.take_append_drop]; exact h)

theorem hasSeq_cons_ne_false (x y z a : Nat) (l : List Nat) (ha : a ≠ x)
    (h : hasSeq x y z l = false) : hasSeq x y z (a :: l) = false := by
  rw [hasSeq_false_iff] at h ⊢
  intro p q hc
  rcases p with _ | ⟨e, p'⟩
  · simp at hc
    exact ha hc.1
  · simp at hc
    exact h p' q hc.2

theorem hasSeq_cons2_ne_false (x y z a b : Nat) (l : List Nat) (hb : b ≠ y)
    (h : hasSeq x y z (b :: l) = false) : hasSeq x y z (a :: b :: l) = false := by
  rw [hasSeq_false_iff] at h ⊢
  intro p q hc
  rcases p with _ | ⟨e, p'⟩
  · simp at hc
    exact hb hc.2.1
  · simp at hc
    exact h p' q hc.2

theorem hasSeq_cons3_ne_false (x y z a b c : Nat) (l : List Nat) (hc : c ≠ z)
    (h : hasSeq x y z (b :: c :: l) = false) :
    hasSeq x y z (a :: b :: c :: l) = false := by
  rw [hasSeq_false_iff] at h ⊢
  intro p q hq
  rcases p with _ | ⟨e, p'⟩
  · simp at hq
    exact hc hq.2.2.1
  · simp at hq
    exact h p' q hq.2

/-- A region scanned by `find_three` without firing contains no escape,
provided the surrounding stream contains no anomalous `00 00 00` (in whose
presence the scanner deliberately resynchronizes and lets a `00 00 03`
through).  The state's ghost bytes stand for the stream bytes just before the
buffer. -/
theorem scanned_no_escape : ∀ (buf : List Nat) (s : ParseState), s ≠ .Skip →
    hasSeq 0 0 0 (ghostBytes s ++ buf) = false →
    hasSeq 0 0 3 (ghostBytes s ++ buf.take (find_three s buf).2.1) = false := by
  intro buf
  induction buf with
  | nil =>
    intro s _ _
    cases s <;> simp [find_three, ghostBytes, hasSeq]
  | cons b rest ih =>
    intro s hs h0
    cases s with
    | Start =>
      by_cases hb : b = 0
      · subst hb
        simp only [find_three, if_pos rfl, step1, ghostBytes, List.nil_append,
          List.take_succ_cons]
        exact ih .OneZero (by simp) (by simpa [ghostBytes] using h0)
      · simp only [find_three, if_neg hb, step1, ghostBytes, List.nil_append,
          List.take_succ_cons]
        refine hasSeq_cons_ne_false _ _ _ _ _ hb ?_
        simpa [ghostBytes] using
          ih .Start (by simp) (by simpa [ghostBytes] using hasSeq_cons_false _ _ _ _ _ h0)
    | OneZero =>
      by_cases hb : b = 0
      · subst hb
        simp only [find_three, if_pos rfl, step1, ghostBytes, List.take_succ_cons]
        exact ih .TwoZero (by simp) (by simpa [ghostBytes] using h0)
      · simp only [find_three, if_neg hb, step1, ghostBytes, List.take_succ_cons]
        have hrest := ih .Start (by simp)
          (by
            simpa [ghostBytes] using
              hasSeq_cons_false _ _ _ _ _ (hasSeq_cons_false _ _ _ _ _
                (by simpa [ghostBytes] using h0)))
        simp only [ghostBytes, List.nil_append] at hrest
        simp only [List.cons_append, List.nil_append]
        exact hasSeq_cons2_ne_false _ _ _ _ _ _ hb (hasSeq_cons_ne_false _ _ _ _ _ hb hrest)
    | TwoZero =>
      by_cases hb : b = 3
      · subst hb
        simp only [find_three, if_pos rfl]
        simp [ghostBytes, hasSeq]
      · by_cases hb0 : b = 0
        · subst hb0
          simp [ghostBytes, hasSeq] at h0
        · simp only [find_three, if_neg hb, step1, ghostBytes, List.take_succ_cons]
          have hrest := ih .Start (by simp)
            (by
              simpa [ghostBytes] using
                hasSeq_cons_false _ _ _ _ _ (hasSeq_cons_false _ _ _ _ _
                  (hasSeq_cons_false _ _ _ _ _ (by simpa [ghostBytes] using h0))))
          simp only [ghostBytes, List.nil_append] at hrest
          simp only [List.cons_append, List.nil_append]
          exact hasSeq_cons3_ne_false _ _ _ _ _ _ _ hb
            (hasSeq_cons2_ne_false _ _ _ _ _ _ hb0 (hasSeq_cons_ne_false _ _ _ _ _ hb0 hrest))
    | Skip => exact absurd rfl hs


theorem mem_emit (buf : List Nat) (spans : List (List Nat)) (sp : List Nat)
    (h : sp ∈ emit buf spans) : (sp = buf ∧ buf ≠ []) ∨ sp ∈ spans := by
  unfold emit at h
  split at h
  · exact Or.inr h
  · rcases List.mem_cons.mp h with h' | h'
    · refine Or.inl ⟨h', ?_⟩
      intro hc
      simp_all
    · exact Or.inr h'

/-- Invariant tying the scan state to the stream processed so far: the stream
always ends with the state's ghost bytes (`00` for `OneZero`, `00 00` for
`TwoZero`). -/
theorem ghost_inv : ∀ (buf : List Nat) (s : ParseState) (stream : List Nat),
    (∃ t, stream = t ++ ghostBytes s) →
    ∃ t', stream ++ buf = t' ++ ghostBytes (rbspRun s buf).1 := by
  intro buf
  induction buf with
  | nil => intro s stream h; simpa [rbspRun_nil] using h
  | cons b rest ih =>
    intro s stream h
    have hsplit : stream ++ b :: rest = (stream ++ [b]) ++ rest := by simp
    cases s with
    | Start =>
      by_cases hb0 : b = 0
      · subst hb0
        rw [hsplit]
        simp only [rbspRun, keep, if_pos rfl]
        exact ih .OneZero _ ⟨stream, by simp [ghostBytes]⟩
      · rw [hsplit]
        simp only [rbspRun, keep, if_neg hb0]
        exact ih .Start _ ⟨stream ++ [b], by simp [ghostBytes]⟩
    | OneZero =>
      obtain ⟨t, ht⟩ := h
      by_cases hb0 : b = 0
      · subst hb0
        rw [hsplit]
        simp only [rbspRun, keep, if_pos rfl]
        exact ih .TwoZero _ ⟨t, by simp [ht, ghostBytes]⟩
      · rw [hsplit]
        simp only [rbspRun, keep, if_neg hb0]
        exact ih .Start _ ⟨stream ++ [b], by simp [ghostBytes]⟩
    | TwoZero =>
      by_cases hb3 : b = 3
      · subst hb3
        rw [hsplit]
        simp only [rbspRun, if_pos rfl]
        exact ih .Start _ ⟨stream ++ [3], by simp [ghostBytes]⟩
      · rw [hsplit]
        simp only [rbspRun, keep, if_neg hb3]
        exact ih .Start _ ⟨stream ++ [b], by simp [ghostBytes]⟩
    | Skip =>
      rw [hsplit]
      simp only [rbspRun, keep]
      exact ih .Skip _ ⟨stream ++ [b], by simp [ghostBytes]⟩

/-- Every span forwarded by one `push` call is non-empty and escape-free,
provided the stream (ghost context included) has no `00 00 00`. -/
theorem pushGo_spans : ∀ (fuel : Nat) (s : ParseState) (buf : List Nat),
    buf.length ≤ fuel → s ≠ .Skip →
    hasSeq 0 0 0 (ghostBytes s ++ buf) = false →
    ∀ sp ∈ (pushGo fuel s buf).2, sp ≠ [] ∧ hasSeq 0 0 3 sp = false := by
  intro fuel
  induction fuel with
  | zero =>
    intro s buf _ _ _ sp hsp
    simp [pushGo] at hsp
  | succ fuel ih =>
    intro s buf hlen hs h0 sp hsp
    have hne := scanned_no_escape buf s hs h0
    by_cases hf : (find_three s buf).2.2 = true
    · obtain ⟨-, h2⟩ := find_three_spec buf s hs
      obtain ⟨e1, -, -⟩ := h2 hf
      simp only [pushGo, hf, if_true, reduceIte] at hsp
      rcases mem_emit _ _ _ hsp with ⟨rfl, hnn⟩ | hsp'
      · exact ⟨hnn, hasSeq_append_left_false _ _ _ _ _ hne⟩
      · refine ih .Start _ (by simp only [List.length_drop]; omega) (by simp) ?_ sp hsp'
        simp only [ghostBytes, List.nil_append]
        exact hasSeq_drop_false _ _ _ _ _ (hasSeq_append_left_false _ _ _ _ _ h0)
    · replace hf : (find_three s buf).2.2 = false := by simpa using hf
      obtain ⟨h1, -⟩ := find_three_spec buf s hs
      obtain ⟨e1, -, -⟩ := h1 hf
      simp only [pushGo, hf, Bool.false_eq_true, if_false, reduceIte] at hsp
      rcases mem_emit _ _ _ hsp with ⟨rfl, hnn⟩ | hsp'
      · refine ⟨hnn, ?_⟩
        have h3 := hasSeq_append_left_false _ _ _ _ _ hne
        rwa [e1, List.take_length] at h3
      · simp at hsp'

/-- Every span forwarded over a whole sequence of `push` calls is non-empty
and escape-free, provided the concatenated stream has no `00 00 00`. -/
theorem pushSeq_spans : ∀ (chunks : List (List Nat)) (s : ParseState) (processed : List Nat),
    s ≠ .Skip → (∃ t, processed = t ++ ghostBytes s) →
    hasSeq 0 0 0 (processed ++ chunks.flatten) = false →
    ∀ sp ∈ (pushSeq s chunks).2, sp ≠ [] ∧ hasSeq 0 0 3 sp = false := by
  intro chunks
  induction chunks with
  | nil => intro s processed _ _ _ sp hsp; simp [pushSeq] at hsp
  | cons c cs ih =>
    intro s processed hs hinv h0 sp hsp
    simp only [pushSeq] at hsp
    obtain ⟨t, ht⟩ := hinv
    have hgc : hasSeq 0 0 0 (ghostBytes s ++ c) = false := by
      rw [ht] at h0
      simp only [List.flatten_cons, List.append_assoc] at h0
      have h1 := hasSeq_append_left_false 0 0 0 t _ h0
      rw [← List.append_assoc] at h1
      have h2 := hasSeq_take_false 0 0 0 (ghostBytes s ++ c).length _ h1
      rwa [List.take_left] at h2
    rcases List.mem_append.mp hsp with hsp1 | hsp2
    · exact pushGo_spans c.length s c le_rfl hs hgc sp hsp1
    · have hstate : (RbspDecoder.push s c).1 = (rbspRun s c).1 := (push_spec s c hs).1
      refine ih (rbspRun s c).1 (processed ++ c) (rbspRun_ne_skip c s hs) ?_ ?_ sp
        (by rwa [hstate] at hsp2)
      · exact ghost_inv c s processed ⟨t, ht⟩
      · simp only [List.flatten_cons] at h0
        simpa [List.append_assoc] using h0


/-! ## Lemmas: the bit reader -/

theorem readUnary1Bits_replicate (k : Nat) (rest : List Bool) (t : IoErrK) :
    readUnary1Bits (List.replicate k false ++ true :: rest) t = .ok (k, ⟨rest, t⟩) := by
  induction k with
  | zero => simp [readUnary1Bits]
  | succ k ih => simp [List.replicate_succ, readUnary1Bits, ih]

theorem readUnary1Bits_allZero (k : Nat) (t : IoErrK) :
    readUnary1Bits (List.replicate k false) t = .error t := by
  induction k with
  | zero => rfl
  | succ k ih => simp [List.replicate_succ, readUnary1Bits, ih]

theorem readBitsAux_spec : ∀ (n acc : Nat) (bs : List Bool) (t : IoErrK), n ≤ bs.length →
    readBitsAux acc n ⟨bs, t⟩ =
      .ok ((bs.take n).foldl (fun a b => 2 * a + (if b then 1 else 0)) acc, ⟨bs.drop n, t⟩) := by
  intro n
  induction n with
  | zero => intro acc bs t _; simp [readBitsAux]
  | succ n ih =>
    intro acc bs t h
    cases bs with
    | nil => simp at h
    | cons b rest =>
      simp only [readBitsAux, read_bit]
      rw [ih _ rest t (by simpa using h)]
      simp [List.take_succ_cons]

theorem readBitsAux_lt : ∀ (n acc : Nat) (s : BitSrc) (v : Nat) (s' : BitSrc),
    readBitsAux acc n s = .ok (v, s') → v < (acc + 1) * 2 ^ n := by
  intro n
  induction n with
  | zero =>
    intro acc s v s' h
    simp only [readBitsAux] at h
    injection h with h
    injection h with h1 h2
    subst h1
    simp
  | succ n ih =>
    intro acc s v s' h
    simp only [readBitsAux, read_bit] at h
    cases hb : s.bits with
    | nil => rw [hb] at h; exact absurd h (by simp)
    | cons b rest =>
      rw [hb] at h
      simp only at h
      have := ih (2 * acc + (if b then 1 else 0)) _ v s' h
      have hble : (if b then 1 else 0) ≤ 1 := by split <;> omega
      calc v < (2 * acc + (if b then 1 else 0) + 1) * 2 ^ n := this
        _ ≤ (acc + 1) * 2 ^ (n + 1) := by
            rw [pow_succ]
            nlinarith [Nat.pos_pow_of_pos n (show 0 < 2 by omega)]

theorem read_bits_spec (n : Nat) (bs : List Bool) (t : IoErrK) (h : n ≤ bs.length) :
    read_bits n ⟨bs, t⟩ = .ok (bitsToNat (bs.take n), ⟨bs.drop n, t⟩) :=
  readBitsAux_spec n 0 bs t h

theorem read_bits_lt (n : Nat) (s : BitSrc) (v : Nat) (s' : BitSrc)
    (h : read_bits n s = .ok (v, s')) : v < 2 ^ n := by
  have := readBitsAux_lt n 0 s v s' h
  simpa using this

/-- Behaviour of `read_ue` on a well-formed Exp-Golomb code: `k` zeros, a
one, then at least `k` suffix bits. -/
theorem read_ue_golomb (k : Nat) (rest : List Bool) (t : IoErrK)
    (hk : k ≤ 31) (hr : k ≤ rest.length) :
    read_ue ⟨List.replicate k false ++ true :: rest, t⟩ =
      .ok ((1 <<< k) - 1 + bitsToNat (rest.take k), ⟨rest.drop k, t⟩) := by
  unfold read_ue read_unary1
  simp only
  rw [readUnary1Bits_replicate]
  simp only [if_neg (by omega : ¬ 31 < k)]
  by_cases hk0 : 0 < k
  · simp only [if_pos hk0]
    rw [read_bits_spec k rest t hr]
  · have hk0' : k = 0 := by omega
    subst hk0'
    simp [bitsToNat]

theorem read_ue_le (s : BitSrc) (v : Nat) (s' : BitSrc) (h : read_ue s = .ok (v, s')) :
    v ≤ 2 ^ 32 - 2 := by
  unfold read_ue at h
  cases hu : read_unary1 s with
  | error e => rw [hu] at h; exact absurd h (by simp)
  | ok p =>
    obtain ⟨k, s1⟩ := p
    rw [hu] at h
    simp only at h
    by_cases hk : 31 < k
    · rw [if_pos hk] at h
      exact absurd h (by simp)
    · rw [if_neg hk] at h
      by_cases hk0 : 0 < k
      · rw [if_pos hk0] at h
        cases hb : read_bits k s1 with
        | error e => rw [hb] at h; exact absurd h (by simp)
        | ok q =>
          obtain ⟨val, s2⟩ := q
          rw [hb] at h
          simp only [Except.ok.injEq, Prod.mk.injEq] at h
          have hval := read_bits_lt k s1 val s2 hb
          have hpow : 2 ^ k ≤ 2 ^ 31 := Nat.pow_le_pow_right (by omega) (by omega)
          have h31 : (2 : Nat) ^ 31 = 2147483648 := by norm_num
          rw [← h.1, Nat.shiftLeft_eq, one_mul]
          omega
      · rw [if_neg hk0] at h
        simp only [Except.ok.injEq, Prod.mk.injEq] at h
        omega

/-- The arithmetic of `golomb_to_signed`, in the shape of the H.264 mapping:
zero stays zero, odd code numbers map to `+⌈v/2⌉`, even ones to `-⌈v/2⌉`. -/
theorem golomb_to_signed_eq (v : Nat) :
    golomb_to_signed v =
      (if v % 2 = 1 then 1 else -1) * (((v + 1) / 2 : Nat) : Int) := by
  unfold golomb_to_signed
  rcases Nat.mod_two_eq_zero_or_one v with hp | hp
  · have h1 : v &&& 1 = 0 := by rw [Nat.and_one_is_mod, hp]
    have h2 : v >>> 1 = v / 2 := Nat.shiftRight_one v
    have h3 : (v + 1) / 2 = v / 2 := by omega
    rw [h1, h2, h3, if_neg (by omega)]
    push_cast
    ring
  · have h1 : v &&& 1 = 1 := by rw [Nat.and_one_is_mod, hp]
    have h2 : v >>> 1 = v / 2 := Nat.shiftRight_one v
    have h3 : (v + 1) / 2 = v / 2 + 1 := by omega
    rw [h1, h2, h3, if_pos hp]
    push_cast
    ring

theorem golomb_bounds (v : Nat) (hv : v ≤ 2 ^ 32 - 2) :
    ((v >>> 1 : Nat) : Int) + ((v &&& 1 : Nat) : Int) ≤ 2 ^ 31 - 1 ∧
    -(2 ^ 31 - 1) ≤ golomb_to_signed v ∧ golomb_to_signed v ≤ 2 ^ 31 - 1 := by
  have h2 : v >>> 1 = v / 2 := Nat.shiftRight_one v
  have h1 : v &&& 1 = v % 2 := Nat.and_one_is_mod v
  refine ⟨by rw [h1, h2]; omega, ?_, ?_⟩ <;> rw [golomb_to_signed_eq] <;> split <;> omega


/-! ## Claim theorems -/

/-- C1: the claim states that `decode_nal` returns the RBSP of its input
(every `emulation_prevention_three_byte` deleted, length = input length minus
the number of escape bytes).  The code violates this on the conforming
escaped NAL payload `00 00 03 03` (the escaped form of the RBSP `00 00 03`):
the decoder does drop the escape byte from the forwarded spans (second
conjunct), but every forwarded span happens to compare equal to the original
bytes at the write cursor, so no byte-level mismatch ever occurs, the
copy-on-write buffer stays borrowed, and `end` does not truncate — the
untouched 4-byte input is returned (first conjunct), contradicting the
claim and the function's own documentation. -/
theorem c1_decode_nal_trailing_escape_bug :
    decode_nal [0, 0, 3, 3] = (false, [0, 0, 3, 3]) ∧
    ((RbspDecoder.push .Start [0, 0, 3, 3]).2).flatten = [0, 0, 3] := by
  decide

/-- C2: chunk-boundary invariance.  For every byte sequence and every split
offset, pushing the two halves through `RbspDecoder::push` in succession
forwards exactly the same total bytes as pushing the whole sequence at once,
and reading a fresh pull-style `ByteReader` over the two chunks to
exhaustion yields exactly the same bytes as over the single chunk. -/
theorem c2_chunk_boundary_invariance (data : List Nat) (k : Nat) :
    ((RbspDecoder.push .Start (data.take k)).2 ++
        (RbspDecoder.push (RbspDecoder.push .Start (data.take k)).1 (data.drop k)).2).flatten =
      ((RbspDecoder.push .Start data).2).flatten ∧
    read_to_end (ByteReader.new [data.take k, data.drop k]) =
      read_to_end (ByteReader.new [data]) := by
  constructor
  · have h1 := push_spec .Start (data.take k) (by simp)
    have hs1 : (rbspRun .Start (data.take k)).1 ≠ .Skip := rbspRun_ne_skip _ _ (by simp)
    have h2 := push_spec (RbspDecoder.push .Start (data.take k)).1 (data.drop k)
      (by rw [h1.1]; exact hs1)
    have h3 := push_spec .Start data (by simp)
    rw [List.flatten_append, h1.2, h2.2, h3.2, h1.1]
    have happ := rbspRun_append (data.take k) (data.drop k) .Start
    rw [List.take_append_drop] at happ
    rw [happ]
  · rw [byte_reader_output, byte_reader_output]
    simp

/-- C3 counterexample: the claim describes `read_ue`'s unary prefix as
"consecutive 1-bits terminated by a 0-bit".  `read_ue_spec_words` implements
exactly that wording; on the byte `0x40` (bits `01000000`) it returns 0
(empty 1-run) while the actual `read_ue` (which reads consecutive 0-bits
terminated by a 1-bit, per `bitstream_io::read_unary1` and the crate's own
tests) returns 1.  So the claim, as stated, is false at this input. -/
theorem c3_counterexample :
    read_ue_spec_words ⟨bytesToBits [0x40], .eof⟩ =
      .ok (0, ⟨[true, false, false, false, false, false, false], .eof⟩) ∧
    read_ue ⟨bytesToBits [0x40], .eof⟩ =
      .ok (1, ⟨[false, false, false, false, false], .eof⟩) ∧
    (0 : Nat) ≠ 1 := by
  decide

/-- C3 (amended): `read_ue` reads a unary prefix of consecutive 0-bits
terminated by a 1-bit, of length `leadingBits = k`; if `k = 0` it returns 0,
and for `k ≤ 31` (with enough suffix bits available) it reads `k` further
bits as `suffix` and returns `(1 <<< k) - 1 + suffix` (for `k = 0` this
formula also yields 0, so the two cases are stated uniformly). -/
theorem c3_amended_read_ue (k : Nat) (suffix : List Bool) (t : IoErrK)
    (hk : k ≤ 31) (hs : k ≤ suffix.length) :
    read_ue ⟨List.replicate k false ++ true :: suffix, t⟩ =
      .ok ((1 <<< k) - 1 + bitsToNat (suffix.take k), ⟨suffix.drop k, t⟩) :=
  read_ue_golomb k suffix t hk hs

theorem c3_amended_witness :
    read_ue ⟨List.replicate 3 false ++ true :: [true, false, true], .eof⟩ =
      .ok ((1 <<< 3) - 1 + bitsToNat ([true, false, true].take 3),
        ⟨[true, false, true].drop 3, .eof⟩) :=
  c3_amended_read_ue 3 [true, false, true] .eof (by decide) (by decide)

/-- C4: `read_ue` fails with `ExpGolombTooLarge` exactly when the unary
prefix it reads exceeds 31 bits (first conjunct: the error occurs iff the
unary read succeeds with a count above 31 — if the unary read itself fails
the error is a `ReaderErrorFor` instead), and on every successful return the
prefix length was at most 31 (second conjunct).  The model is total, so no
panic or wrap-around is possible on the overflow path. -/
theorem c4_read_ue_overflow (s : BitSrc) :
    (read_ue s = .error .ExpGolombTooLarge ↔
      ∃ k s1, read_unary1 s = .ok (k, s1) ∧ 31 < k) ∧
    (∀ (v : Nat) (s' : BitSrc), read_ue s = .ok (v, s') →
      ∃ k s1, read_unary1 s = .ok (k, s1) ∧ k ≤ 31) := by
  unfold read_ue
  cases hu : read_unary1 s with
  | error e =>
    constructor
    · simp
    · intro v s' h
      simp at h
  | ok p =>
    obtain ⟨k, s1⟩ := p
    simp only
    by_cases hk : 31 < k
    · rw [if_pos hk]
      constructor
      · exact ⟨fun _ => ⟨k, s1, rfl, hk⟩, fun _ => rfl⟩
      · intro v s' h
        exact absurd h (by simp)
    · rw [if_neg hk]
      constructor
      · constructor
        · intro h
          exfalso
          by_cases hk0 : 0 < k
          · rw [if_pos hk0] at h
            cases hb : read_bits k s1 with
            | error e => rw [hb] at h; simp at h
            | ok q => rw [hb] at h; simp at h
          · rw [if_neg hk0] at h
            simp at h
        · rintro ⟨k', s1', hu', hk'⟩
          injection hu' with hu'
          injection hu' with hk'' hs''
          omega
      · intro v s' _
        exact ⟨k, s1, rfl, by omega⟩

theorem c4_witness :
    read_ue ⟨bytesToBits [0x00, 0x00, 0x00, 0x00, 0xFF], .eof⟩ =
      .error .ExpGolombTooLarge :=
  (c4_read_ue_overflow ⟨bytesToBits [0x00, 0x00, 0x00, 0x00, 0xFF], .eof⟩).1.mpr
    ⟨32, ⟨[true, true, true, true, true, true, true], .eof⟩, by decide, by decide⟩

/-- C5: `read_se` is the signed mapping of `codeNum = read_ue()`: the
`golomb_to_signed` arithmetic equals 0 at 0 and otherwise
`sign * ⌈codeNum/2⌉` with sign `+1` for odd and `-1` for even code numbers
(first conjunct); the table `0,1,2,3,4 → 0,1,-1,2,-2` holds exactly (second
conjunct); and `read_se` returns exactly `golomb_to_signed` of what
`read_ue` returns (third conjunct). -/
theorem c5_read_se_mapping :
    (∀ v : Nat, golomb_to_signed v =
      if v = 0 then 0 else
        (if v % 2 = 1 then 1 else -1) * (((v + 1) / 2 : Nat) : Int)) ∧
    (golomb_to_signed 0 = 0 ∧ golomb_to_signed 1 = 1 ∧ golomb_to_signed 2 = -1 ∧
      golomb_to_signed 3 = 2 ∧ golomb_to_signed 4 = -2) ∧
    (∀ (s : BitSrc) (v : Nat) (s' : BitSrc), read_ue s = .ok (v, s') →
      read_se s = .ok (golomb_to_signed v, s')) := by
  refine ⟨?_, by decide, ?_⟩
  · intro v
    rw [golomb_to_signed_eq]
    by_cases hv : v = 0
    · subst hv
      simp
    · rw [if_neg hv]
  · intro s v s' h
    unfold read_se
    rw [h]

theorem c5_witness :
    read_se ⟨[false, true, true], .eof⟩ = .ok (golomb_to_signed 2, ⟨[], .eof⟩) :=
  c5_read_se_mapping.2.2 ⟨[false, true, true], .eof⟩ 2 ⟨[], .eof⟩ (by decide)

/-- C6: `has_more_rbsp_data` behaviour.  On `0x12 0x80` it is true before
any read and false after consuming the first byte; on `0x18` it is false
after consuming the top 4 bits; on `0x80 00 00` (stop bit plus cabac-zero
-word padding) it is false immediately.  In general, from any current bit
followed only by zero bits to a clean end of source, the probe's
end-of-source is translated into `false` rather than an error (seventh
conjunct, which subsumes arbitrary all-zero padding), while a non-EOF I/O
failure in the same position propagates as an error (eighth conjunct). -/
theorem c6_has_more_rbsp_data :
    (has_more_rbsp_data ⟨bytesToBits [0x12, 0x80], .eof⟩).1 = .ok true ∧
    read_bits 8 ⟨bytesToBits [0x12, 0x80], .eof⟩ =
      .ok (0x12, ⟨bytesToBits [0x80], .eof⟩) ∧
    (has_more_rbsp_data ⟨bytesToBits [0x80], .eof⟩).1 = .ok false ∧
    read_bits 4 ⟨bytesToBits [0x18], .eof⟩ =
      .ok (0x1, ⟨[true, false, false, false], .eof⟩) ∧
    (has_more_rbsp_data ⟨[true, false, false, false], .eof⟩).1 = .ok false ∧
    (has_more_rbsp_data ⟨bytesToBits [0x80, 0x00, 0x00], .eof⟩).1 = .ok false ∧
    (∀ (b : Bool) (k : Nat),
      (has_more_rbsp_data ⟨b :: List.replicate k false, .eof⟩).1 = .ok false) ∧
    (∀ (b : Bool) (k : Nat),
      (has_more_rbsp_data ⟨b :: List.replicate k false, .other⟩).1 =
        .error (.ReaderErrorFor .other)) := by
  refine ⟨by decide, by decide, by decide, by decide, by decide, by decide, ?_, ?_⟩
  · intro b k
    simp [has_more_rbsp_data, read_bit, read_unary1, readUnary1Bits_allZero]
  · intro b k
    simp [has_more_rbsp_data, read_bit, read_unary1, readUnary1Bits_allZero]

/-- C7: `has_more_rbsp_data` never changes the observable state of the
reader it is called on: the reader it returns is exactly the input reader
(the probe runs on an independent value copy), hence every sequence of
subsequent reads gives identical results whether or not it was called
first. -/
theorem c7_has_more_rbsp_data_frame (s : BitSrc) (ops : List BitOp) :
    (has_more_rbsp_data s).2 = s ∧
    runOps (has_more_rbsp_data s).2 ops = runOps s ops :=
  ⟨rfl, rfl⟩

/-- C8 counterexample: on the single push `00 00 00 00 03` the decoder hits
the anomalous `00 00 00`, resynchronizes, and forwards one span that
contains the escape sequence `00 00 03` — so "every forwarded span is
escape-free", as claimed for arbitrary pushes, is false. -/
theorem c8_counterexample :
    (RbspDecoder.push .Start [0, 0, 0, 0, 3]).2 = [[0, 0, 0, 0, 3]] ∧
    hasSeq 0 0 3 [0, 0, 0, 0, 3] = true := by
  decide

/-- C8 (amended): for every sequence of `push` calls whose concatenated
bytes contain no `00 00 00` (the anomalous pattern that is invalid in a
framed bitstream and on which the decoder deliberately resynchronizes),
every span forwarded to the downstream consumer is non-empty and contains no
`00 00 03`, regardless of how the input is chunked. -/
theorem c8_amended_escape_free_spans (chunks : List (List Nat))
    (h : hasSeq 0 0 0 chunks.flatten = false) :
    ((pushSeq .Start chunks).2).all (fun sp => !sp.isEmpty && !hasSeq 0 0 3 sp) = true := by
  rw [List.all_eq_true]
  intro sp hsp
  obtain ⟨h1, h2⟩ := pushSeq_spans chunks .Start [] (by simp) ⟨[], by simp [ghostBytes]⟩
    (by simpa using h) sp hsp
  simp only [Bool.and_eq_true, Bool.not_eq_true']
  exact ⟨by simpa using h1, h2⟩

theorem c8_amended_witness :
    ((pushSeq .Start [[0x67, 0x00], [0x00, 0x03, 0x01, 0x42]]).2).all
      (fun sp => !sp.isEmpty && !hasSeq 0 0 3 sp) = true :=
  c8_amended_escape_free_spans [[0x67, 0x00], [0x00, 0x03, 0x01, 0x42]] (by decide)

/-- C9: reading the pull-style `ByteReader` to exhaustion drops exactly one
leading byte of the underlying source (discarded unconditionally via the
initial `Skip` state) and yields the escape-removed remainder: for the
crate's test vector, however the source is chunked, the output is the
header-less RBSP. -/
theorem c9_pull_path_test_vector (chunks : List (List Nat))
    (h : chunks.flatten = nalData) :
    read_to_end (ByteReader.new chunks) = rbspData := by
  rw [byte_reader_output, h]
  decide

theorem c9_witness : read_to_end (ByteReader.new [nalData]) = rbspData :=
  c9_pull_path_test_vector [nalData] (by simp)

/-- C10: every code number `read_ue` can successfully return lies in
`[0, 2^32 - 2]` (first conjunct), and on that whole range the
`golomb_to_signed` arithmetic stays within `i32`: the magnitude
`(v >> 1) + (v & 1)` is at most `2^31 - 1` and the signed result lies in
`[-(2^31 - 1), 2^31 - 1]` (second conjunct) — so `read_se` never wraps or
panics in the unsigned-to-signed conversion. -/
theorem c10_no_i32_overflow :
    (∀ (s : BitSrc) (v : Nat) (s' : BitSrc), read_ue s = .ok (v, s') → v ≤ 2 ^ 32 - 2) ∧
    (∀ v : Nat, v ≤ 2 ^ 32 - 2 →
      ((v >>> 1 : Nat) : Int) + ((v &&& 1 : Nat) : Int) ≤ 2 ^ 31 - 1 ∧
      -(2 ^ 31 - 1) ≤ golomb_to_signed v ∧ golomb_to_signed v ≤ 2 ^ 31 - 1) :=
  ⟨read_ue_le, golomb_bounds⟩

theorem c10_witness :
    -(2 ^ 31 - 1) ≤ golomb_to_signed 4294967294 ∧
    golomb_to_signed 4294967294 ≤ 2 ^ 31 - 1 :=
  (c10_no_i32_overflow.2 4294967294 (by norm_num)).2

end Rbsp
